import Mathlib

/-!
The interactive picker of gobkc/selector (`main.go`)

A shallow embedding of `src/main.go`.

* A Go `string` is its sequence of bytes (`GoString`, a list of numbers below 256);
  `len`, slicing, `+`, `strings.Split` and `strings.Contains` all work on bytes.
* A `rune` is a code point (`Rune`).  `string(r)` is the UTF-8 encoding of `r`
  and `for _, r := range s` is UTF-8 decoding, both as in Go's `unicode/utf8`.
* The global `input` channel is the list of runes still to be received, in order.
* What the program does to the outside world (bytes printed, `term.Restore`) is
  recorded as a list of `Effect`s; `os.Exit` ends the run with its code.
-/

set_option autoImplicit false

namespace Selector

/-! ## Strings and runes -/

/-- A Go string: its bytes, in order. -/
abbrev GoString := List Nat

/-- A Go rune: a Unicode code point. -/
abbrev Rune := Nat

/-- The bytes of a Lean string literal, char by char, for ASCII text. -/
def ascii (s : String) : GoString := s.toList.map Char.toNat

/-- The replacement character `utf8.RuneError`. -/
def RuneError : Rune := 0xFFFD

/-- Go's `string(r)` for a rune: `utf8.AppendRune`.  `r>>6` is `r / 64`, `r&0x3F` is
`r % 64`, and `|` of disjoint bit fields is `+`.  Surrogates and values above
`0x10FFFF` are encoded as `RuneError`. -/
def encodeRune (r : Rune) : GoString :=
  if r ≤ 0x7F then [r]
  else if r ≤ 0x7FF then [0xC0 + r / 64, 0x80 + r % 64]
  else if r > 0x10FFFF ∨ (0xD800 ≤ r ∧ r ≤ 0xDFFF) then [0xEF, 0xBF, 0xBD]
  else if r ≤ 0xFFFF then [0xE0 + r / 4096, 0x80 + r / 64 % 64, 0x80 + r % 64]
  else [0xF0 + r / 262144, 0x80 + r / 4096 % 64, 0x80 + r / 64 % 64, 0x80 + r % 64]

/-- The table `first` of `unicode/utf8`: information about the first byte of an
encoding (`0xF0` ASCII, `0xF1` invalid, else accept-range index in the high nibble
and size in the low one). -/
def first (b : Nat) : Nat :=
  if b < 0x80 then 0xF0
  else if b < 0xC2 then 0xF1
  else if b < 0xE0 then 0x02
  else if b = 0xE0 then 0x13
  else if b < 0xED then 0x03
  else if b = 0xED then 0x23
  else if b < 0xF0 then 0x03
  else if b = 0xF0 then 0x34
  else if b < 0xF4 then 0x04
  else if b = 0xF4 then 0x44
  else 0xF1

/-- The table `acceptRanges` of `unicode/utf8`: the range allowed for the second byte. -/
def acceptRange (i : Nat) : Nat × Nat :=
  if i = 1 then (0xA0, 0xBF)
  else if i = 2 then (0x80, 0x9F)
  else if i = 3 then (0x90, 0xBF)
  else if i = 4 then (0x80, 0x8F)
  else (0x80, 0xBF)

/-- Go's `utf8.DecodeRuneInString`: the first rune of `s` and its width in bytes.
An invalid or truncated encoding gives `(RuneError, 1)`; the empty string `(RuneError, 0)`. -/
def decodeRune (s : GoString) : Rune × Nat :=
  match s with
  | [] => (RuneError, 0)
  | s0 :: t =>
    let x := first s0
    if x ≥ 0xF0 then
      (if x = 0xF0 then s0 else RuneError, 1)
    else
      let sz := x % 8
      let accept := acceptRange (x / 16)
      if s.length < sz then (RuneError, 1)
      else
        match t with
        | [] => (RuneError, 1)
        | s1 :: t1 =>
          if s1 < accept.1 ∨ accept.2 < s1 then (RuneError, 1)
          else if sz ≤ 2 then (s0 % 32 * 64 + s1 % 64, 2)
          else
            match t1 with
            | [] => (RuneError, 1)
            | s2 :: t2 =>
              if s2 < 0x80 ∨ 0xBF < s2 then (RuneError, 1)
              else if sz ≤ 3 then (s0 % 16 * 4096 + s1 % 64 * 64 + s2 % 64, 3)
              else
                match t2 with
                | [] => (RuneError, 1)
                | s3 :: _ =>
                  if s3 < 0x80 ∨ 0xBF < s3 then (RuneError, 1)
                  else (s0 % 8 * 262144 + s1 % 64 * 4096 + s2 % 64 * 64 + s3 % 64, 4)

/-- The runes a `for _, r := range s` loop visits; `fuel` bounds the number of
iterations (each one consumes at least one byte). -/
def rangeRunes : Nat → GoString → List Rune
  | 0, _ => []
  | _, [] => []
  | fuel + 1, s =>
    let d := decodeRune s
    d.1 :: rangeRunes fuel (s.drop (max d.2 1))

/-- The runes of `s`, as a `range` loop sees them. -/
def runesOf (s : GoString) : List Rune := rangeRunes s.length s

/-- Go's `utf8.RuneCountInString`. -/
def RuneCountInString (s : GoString) : Nat := (runesOf s).length

/-! ## `strings` -/

/-- Go's `strings.Contains(s, substr)`: `substr` occurs in `s` at some byte offset. -/
def Contains : GoString → GoString → Bool
  | [], substr => substr.isEmpty
  | c :: s, substr => substr.isPrefixOf (c :: s) || Contains s substr

/-- Go's `strings.Split(s, sep)` for a separator of one byte `sep`: the pieces of `s`
between the separators, one more than there are separators. -/
def Split (s : GoString) (sep : Nat) : List GoString :=
  match s with
  | [] => [[]]
  | c :: t =>
    if c = sep then [] :: Split t sep
    else
      match Split t sep with
      | [] => [[c]]
      | piece :: pieces => (c :: piece) :: pieces

/-- The byte of `","`. -/
def comma : Nat := 44

/-! ## `unicode` -/

/-- The range tables of Go's `unicode` package beyond Latin-1 (`unicode.Letter`,
`unicode.White_Space`, `unicode.Scripts["Han"]`, `unicode.Number`), which are not
part of this repository: they are a parameter of the model. -/
structure UnicodeTables where
  letter : Rune → Bool
  whiteSpace : Rune → Bool
  han : Rune → Bool
  number : Rune → Bool

/-- Go's `unicode.MaxLatin1`. -/
def MaxLatin1 : Rune := 0xFF

/-- Go's `unicode.IsLetter`: for Latin-1 the `properties` table (upper and lower case
letters), beyond it the `Letter` range table. -/
def IsLetter (T : UnicodeTables) (r : Rune) : Bool :=
  if r ≤ MaxLatin1 then
    decide ((0x41 ≤ r ∧ r ≤ 0x5A) ∨ (0x61 ≤ r ∧ r ≤ 0x7A) ∨ r = 0xAA ∨ r = 0xB5 ∨ r = 0xBA
      ∨ (0xC0 ≤ r ∧ r ≤ 0xD6) ∨ (0xD8 ≤ r ∧ r ≤ 0xF6) ∨ (0xF8 ≤ r ∧ r ≤ 0xFF))
  else T.letter r

/-- Go's `unicode.IsSpace`: for Latin-1 the eight listed characters, beyond it the
`White_Space` range table. -/
def IsSpace (T : UnicodeTables) (r : Rune) : Bool :=
  if r ≤ MaxLatin1 then
    decide (r = 0x09 ∨ r = 0x0A ∨ r = 0x0B ∨ r = 0x0C ∨ r = 0x0D ∨ r = 0x20 ∨ r = 0x85 ∨ r = 0xA0)
  else T.whiteSpace r

/-- Go's `unicode.IsNumber`: for Latin-1 the `properties` table (digits, superscripts
and vulgar fractions), beyond it the `Number` range table. -/
def IsNumber (T : UnicodeTables) (r : Rune) : Bool :=
  if r ≤ MaxLatin1 then
    decide ((0x30 ≤ r ∧ r ≤ 0x39) ∨ r = 0xB2 ∨ r = 0xB3 ∨ r = 0xB9 ∨ (0xBC ≤ r ∧ r ≤ 0xBE))
  else T.number r

/-- Go's `unicode.Is(unicode.Scripts["Han"], r)`: the Han table starts at U+2E80. -/
def IsHan (T : UnicodeTables) (r : Rune) : Bool :=
  if r < 0x2E80 then false else T.han r

/-- A sample of the range tables: the CJK unified ideographs U+4E00..U+9FFF are Han
letters, U+2E80..U+2EF3 are Han radicals (symbols), U+2003 is a space and the
Arabic-Indic digits U+0660..U+0669 are numbers. -/
def sampleTables : UnicodeTables where
  letter := fun r => decide (0x4E00 ≤ r ∧ r ≤ 0x9FFF)
  whiteSpace := fun r => decide (r = 0x2003)
  han := fun r => decide ((0x4E00 ≤ r ∧ r ≤ 0x9FFF) ∨ (0x2E80 ≤ r ∧ r ≤ 0x2EF3))
  number := fun r => decide (0x0660 ≤ r ∧ r ≤ 0x0669)

/-! ## The pure functions of `main.go` -/

/-- `isValidInput` (main.go 215-222): every rune of `input` is a letter, a space, a Han
character or a number. -/
def isValidInput (T : UnicodeTables) (input : GoString) : Bool :=
  (runesOf input).all fun r => IsLetter T r || IsSpace T r || IsHan T r || IsNumber T r

/-- The inner loop of `searchOptions` (main.go 149-153): does some item of
`searchList` occur in `option`? -/
def matchesAny (option : GoString) : List GoString → Bool
  | [] => false
  | item :: items => if Contains option item then true else matchesAny option items

/-- The outer loop of `searchOptions` (main.go 148-155). -/
def searchLoop (searchList : List GoString) : List GoString → GoString
  | [] => []
  | option :: options => if matchesAny option searchList then option else searchLoop searchList options

/-- `searchOptions` (main.go 146-156). -/
def searchOptions (options : List GoString) (searchText : GoString) : GoString :=
  let searchList := Split searchText comma
  searchLoop searchList options

/-- The loop of `prevIndex` (main.go 180-187) from position `i`, over the options
not yet visited. -/
def prevIndexLoop (options : List GoString) (currentIndex : GoString) : Nat → List GoString → GoString
  | _, [] => currentIndex
  | i, opt :: rest =>
    if opt = currentIndex then
      if i > 0 then options.getD (i - 1) [] else options.getD (options.length - 1) []
    else prevIndexLoop options currentIndex (i + 1) rest

/-- `prevIndex` (main.go 179-189). -/
def prevIndex (options : List GoString) (currentIndex : GoString) : GoString :=
  prevIndexLoop options currentIndex 0 options

/-- The loop of `nextIndex` (main.go 192-199) from position `i`. -/
def nextIndexLoop (options : List GoString) (currentIndex : GoString) : Nat → List GoString → GoString
  | _, [] => currentIndex
  | i, opt :: rest =>
    if opt = currentIndex then
      if i < options.length - 1 then options.getD (i + 1) [] else options.getD 0 []
    else nextIndexLoop options currentIndex (i + 1) rest

/-- `nextIndex` (main.go 191-201). -/
def nextIndex (options : List GoString) (currentIndex : GoString) : GoString :=
  nextIndexLoop options currentIndex 0 options

/-! ## Session state, effects and `handleInput` -/

/-- The mutable session state: the `index` variable of `main` (the highlighted
option, passed to `handleInput` by pointer) and the global `searchText`. -/
structure State where
  index : GoString
  searchText : GoString
deriving DecidableEq, Repr

/-- What the program does to the outside world. -/
inductive Effect
  | print (s : GoString)
  | restore
deriving DecidableEq, Repr

/-- `"\033[2J\033[H"`: clear the screen and move the cursor home. -/
def clearScreen : GoString := ascii "\x1b[2J\x1b[H"

/-- `"\033[?1049l"`: leave the alternate screen buffer. -/
def normalBuffer : GoString := ascii "\x1b[?1049l"

/-- The variable `purpleBackground`. -/
def purpleBackground : GoString := ascii "\x1b[48;5;93m"

/-- The variable `whiteText`. -/
def whiteText : GoString := ascii "\x1b[97m"

/-- The variable `resetColor`. -/
def resetColor : GoString := ascii "\x1b[0m"

/-- How one call of `handleInput` ends: it returns (with what is left on the `input`
channel), it waits forever on `<-input` because no rune is left, or the process ends
with an exit status (`os.Exit`, or 2 for a run-time panic).  Each case carries the
state at that moment and the effects of the call. -/
inductive Handled
  | returned (st : State) (input : List Rune) (out : List Effect)
  | blocked (st : State) (out : List Effect)
  | exited (code : Nat) (st : State) (out : List Effect)
deriving DecidableEq, Repr

/-- The state a call of `handleInput` ends in. -/
def Handled.state : Handled → State
  | .returned st _ _ => st
  | .blocked st _ => st
  | .exited _ st _ => st

/-- The effects of a call of `handleInput`. -/
def Handled.out : Handled → List Effect
  | .returned _ _ out => out
  | .blocked _ out => out
  | .exited _ _ out => out

/-- `handleInput` (main.go 99-133).  `input` is what the `input` channel will still
deliver; each `<-input` takes its head.  `hasOldState` says whether the global
`oldState` is set, which `main` does exactly when standard input is a terminal
(main.go 55-56).  On Enter `term.Restore(fd, oldState)` is called without a guard
(main.go 114): with `oldState` nil it dereferences a nil pointer, a run-time panic
that ends the process with status 2 after the clear sequence has been printed and
before `index` is. -/
def handleInput (T : UnicodeTables) (hasOldState : Bool) (char : Rune) (options : List GoString)
    (st : State) (input : List Rune) : Handled :=
  if char = 0x1B then
    match input with
    | [] => .blocked st []
    | nextChar :: input1 =>
      if nextChar = 0x5B then
        match input1 with
        | [] => .blocked st []
        | finalChar :: input2 =>
          if finalChar = 0x41 then
            .returned { st with index := prevIndex options st.index } input2 []
          else if finalChar = 0x42 then
            .returned { st with index := nextIndex options st.index } input2 []
          else .returned st input2 []
      else .returned st input1 []
  else if char = 13 then
    if hasOldState then
      .exited 0 st [.print clearScreen, .restore, .print normalBuffer, .print (st.index ++ [10])]
    else .exited 2 st [.print clearScreen]
  else if char = 127 then
    if st.searchText.length > 0 then
      .returned { st with searchText := st.searchText.take (st.searchText.length - 1) } input
        [.print [8, 32, 8]]
    else .returned st input []
  else
    if isValidInput T (encodeRune char) then
      let searchText := st.searchText ++ encodeRune char
      let searchVal := searchOptions options searchText
      .returned { index := if searchVal ≠ [] then searchVal else st.index, searchText := searchText }
        input [.print (encodeRune char)]
    else .returned st input []

/-! ## Rendering -/

/-- The padding of `fmt` for `%s` with a width (`fmt.padString`): `wid` counts runes,
a string that is already wide enough is written as it is, and the flag `-` puts the
padding after the string instead of before it. -/
def padString (minus : Bool) (wid : Nat) (s : GoString) : GoString :=
  if wid = 0 then s
  else
    let width := wid - RuneCountInString s
    if !minus then List.replicate width 32 ++ s
    else s ++ List.replicate width 32

/-- The decimal digits `%d` prints for a non-negative integer. -/
def formatInt (n : Nat) : GoString := (Nat.toDigits 10 n).map Char.toNat

/-- The loop of `clearAndDraw` (main.go 166-173): one row per option. -/
def drawOptions (cols : Nat) (index : GoString) : List GoString → GoString
  | [] => []
  | opt :: rest =>
    (if opt = index then purpleBackground ++ whiteText else resetColor)
      ++ (padString true cols (ascii " " ++ opt) ++ ascii "\n\r")
      ++ drawOptions cols index rest

/-- The width `clearAndDraw` draws with (main.go 159-162); `wsCol` is the column count
the window-size query reports, 0 when it reports nothing. -/
def drawCols (title searchText : GoString) (wsCol : Nat) : Nat :=
  if wsCol = 0 then title.length + searchText.length + 43 else wsCol

/-- `clearAndDraw` (main.go 158-177): the bytes it prints. -/
def clearAndDraw (title searchText : GoString) (wsCol : Nat) (options : List GoString)
    (index : GoString) : GoString :=
  let cols := drawCols title searchText wsCol
  clearScreen
    ++ (title ++ ascii ": " ++ searchText ++ ascii "\n\r")
    ++ drawOptions cols index options
    ++ resetColor
    ++ (ascii "\x1b[1;" ++ formatInt (title.length + searchText.length + 3) ++ ascii "H")

/-- The row the specification describes: the text right-justified, that is padded with
spaces on the left, to `cols` columns. -/
def rightJustified (cols : Nat) (s : GoString) : GoString :=
  List.replicate (cols - RuneCountInString s) 32 ++ s

/-! ## The event loop of `main` -/

/-- The signals `main` subscribes to. -/
inductive Signal
  | SIGWINCH
  | SIGINT
deriving DecidableEq, Repr

/-- Something that arrives from outside while the session runs: a rune read from
standard input (sent on `input` by `readInput`) or a signal (sent on `sigs`). -/
inductive Arrival
  | char (r : Rune)
  | sig (s : Signal)
deriving DecidableEq, Repr

/-- What surrounds the session: the Unicode tables, the title, whether standard input
is a terminal, and the column count the window-size query reports. -/
structure Env where
  tables : UnicodeTables
  title : GoString
  isTerminal : Bool
  wsCol : Nat

/-- The runes among the arrivals, in order. -/
def runesIn : List Arrival → List Rune
  | [] => []
  | .char r :: rest => r :: runesIn rest
  | .sig _ :: rest => runesIn rest

/-- The signals among the arrivals, in order. -/
def signalsIn : List Arrival → List Signal
  | [] => []
  | .char _ :: rest => signalsIn rest
  | .sig s :: rest => s :: signalsIn rest

/-- The arrivals after `handleInput` has received `k` more runes: the signals that
arrived before the last of these runes, and what arrives afterwards. -/
def afterRunes : Nat → List Arrival → List Signal × List Arrival
  | 0, rest => ([], rest)
  | _ + 1, [] => ([], [])
  | k + 1, .char _ :: rest => afterRunes k rest
  | k + 1, .sig s :: rest => ((afterRunes (k + 1) rest).1.cons s, (afterRunes (k + 1) rest).2)

/-- How the session stands when nothing more arrives: `main` waits at its `select`,
or it is inside `handleInput` waiting on `<-input` (with the signals that wait on
`sigs` unreceived), or the process has ended with an exit status. -/
inductive Session
  | waiting (st : State) (out : List Effect)
  | blocked (st : State) (sigs : List Signal) (out : List Effect)
  | exited (code : Nat) (st : State) (out : List Effect)
deriving DecidableEq, Repr

/-- The state the session stands in. -/
def Session.state : Session → State
  | .waiting st _ => st
  | .blocked st _ _ => st
  | .exited _ st _ => st

/-- The effects of the session so far. -/
def Session.out : Session → List Effect
  | .waiting _ out => out
  | .blocked _ _ out => out
  | .exited _ _ out => out

/-- The `for { select { ... } }` loop of `main` (main.go 69-85).  Every arrival is taken
by the `select` as it comes, one at a time.  While `handleInput` waits on `<-input`
it receives the runes that arrive; a signal that arrives meanwhile waits on `sigs`
(a channel of capacity 1, so only the first one is kept) and is taken by the next
`select`.  The result is `none` only when `fuel` is used up. -/
def mainLoop (env : Env) (options : List GoString) :
    Nat → State → List Arrival → List Effect → Option Session
  | 0, _, _, _ => none
  | _ + 1, st, [], out => some (.waiting st out)
  | fuel + 1, st, .sig .SIGWINCH :: rest, out =>
    mainLoop env options fuel st rest
      (out ++ [.print (clearAndDraw env.title st.searchText env.wsCol options st.index)])
  | _ + 1, st, .sig .SIGINT :: _, out =>
    some (.exited 1 st
      (out ++ (if env.isTerminal then [.restore] else []) ++ [.print clearScreen]))
  | fuel + 1, st, .char c :: rest, out =>
    match handleInput env.tables env.isTerminal c options st (runesIn rest) with
    | .exited code st1 o => some (.exited code st1 (out ++ o))
    | .blocked st1 o => some (.blocked st1 ((signalsIn rest).take 1) (out ++ o))
    | .returned st1 input1 o =>
      let k := (runesIn rest).length - input1.length
      let later := afterRunes k rest
      mainLoop env options fuel st1 ((later.1.take 1).map .sig ++ later.2)
        (out ++ o ++ [.print (clearAndDraw env.title st1.searchText env.wsCol options st1.index)])

/-- The state `main` starts the loop with (main.go 45-49, and the zero value of the
global `searchText`). -/
def initialState (options : List GoString) : State :=
  { index := match options with
      | [] => []
      | o :: _ => o,
    searchText := [] }

/-- `main` from line 45 on, for the option list the collaborators deliver: when
standard input is a terminal (`env.isTerminal`) raw mode is entered and `oldState` is
set (`term.MakeRaw` is taken to succeed), otherwise `oldState` stays nil; the screen is
drawn once, and the loop runs on what arrives. -/
def main (env : Env) (options : List GoString) (arrivals : List Arrival) : Option Session :=
  let st := initialState options
  mainLoop env options (arrivals.length + 1) st arrivals
    [.print (clearAndDraw env.title st.searchText env.wsCol options st.index)]

/-! ## Logical events (the vocabulary of the specification) -/

/-- The logical input events of the specification that keep the session running. -/
inductive Event
  | cursorUp
  | cursorDown
  | character (c : Rune)
  | backspace
deriving DecidableEq, Repr

/-- The runes that make up an event on the `input` channel. -/
def Event.runes : Event → List Rune
  | .cursorUp => [0x1B, 0x5B, 0x41]
  | .cursorDown => [0x1B, 0x5B, 0x42]
  | .character c => [c]
  | .backspace => [127]

/-- The arrivals of a sequence of events, with no signal in between. -/
def eventArrivals (events : List Event) : List Arrival :=
  (events.flatMap Event.runes).map Arrival.char

/-- A sample environment: a terminal that reports 12 columns. -/
def sampleEnv : Env :=
  { tables := sampleTables, title := ascii "pick", isTerminal := true, wsCol := 12 }

/-! ## `strings`: what the library functions compute -/

theorem Contains_iff_occurs (s substr : GoString) : Contains s substr = true ↔ substr <:+: s := by
  induction s with
  | nil =>
    cases substr <;> simp [Contains]
  | cons c s ih =>
    rw [Contains, Bool.or_eq_true, ih, List.infix_cons_iff, List.isPrefixOf_iff_prefix]

theorem Split_ne_nil (s : GoString) (sep : Nat) : Split s sep ≠ [] := by
  cases s with
  | nil => simp [Split]
  | cons c t =>
    rw [Split]
    split
    · simp
    · split <;> simp

theorem intercalate_cons_cons (sep : GoString) (c : Nat) (p : GoString) (ps : List GoString) :
    List.intercalate sep ((c :: p) :: ps) = c :: List.intercalate sep (p :: ps) := by
  cases ps <;> simp [List.intercalate, List.intersperse]

theorem intercalate_Split (s : GoString) (sep : Nat) :
    List.intercalate [sep] (Split s sep) = s := by
  induction s with
  | nil => simp [Split, List.intercalate]
  | cons c t ih =>
    rw [Split]
    split
    · next h =>
      have hne := Split_ne_nil t sep
      cases hs : Split t sep with
      | nil => exact absurd hs hne
      | cons p ps =>
        rw [hs] at ih
        subst h
        rw [← ih]
        simp [List.intercalate, List.intersperse]
    · next h =>
      have hne := Split_ne_nil t sep
      cases hs : Split t sep with
      | nil => exact absurd hs hne
      | cons p ps =>
        rw [hs] at ih
        simp only
        rw [intercalate_cons_cons, ih]

theorem not_mem_of_mem_Split (s : GoString) (sep : Nat) :
    ∀ t ∈ Split s sep, sep ∉ t := by
  induction s with
  | nil => simp [Split]
  | cons c t ih =>
    rw [Split]
    split
    · intro x hx
      rcases List.mem_cons.mp hx with rfl | hx
      · simp
      · exact ih x hx
    · next h =>
      cases hs : Split t sep with
      | nil => exact absurd hs (Split_ne_nil t sep)
      | cons p ps =>
        rw [hs] at ih
        intro x hx
        simp only at hx
        rcases List.mem_cons.mp hx with rfl | hx
        · intro hmem
          rcases List.mem_cons.mp hmem with rfl | hmem
          · exact h rfl
          · exact ih p (List.mem_cons_self _ _) hmem
        · exact ih x (List.mem_cons_of_mem _ hx)

theorem Split_eq_singleton (s : GoString) (sep : Nat) (h : sep ∉ s) : Split s sep = [s] := by
  induction s with
  | nil => simp [Split]
  | cons c t ih =>
    have hc : c ≠ sep := fun e => h (e ▸ List.mem_cons_self _ _)
    have ht : sep ∉ t := fun e => h (List.mem_cons_of_mem _ e)
    rw [Split, if_neg hc, ih ht]

/-! ## `searchOptions` -/

theorem matchesAny_iff (option : GoString) (searchList : List GoString) :
    matchesAny option searchList = true ↔ ∃ item ∈ searchList, item <:+: option := by
  induction searchList with
  | nil => simp [matchesAny]
  | cons item items ih =>
    rw [matchesAny]
    by_cases h : Contains option item = true
    · rw [if_pos h]
      simp only [true_iff]
      exact ⟨item, List.mem_cons_self _ _, (Contains_iff_occurs _ _).mp h⟩
    · rw [if_neg h, ih]
      constructor
      · rintro ⟨x, hx, hi⟩
        exact ⟨x, List.mem_cons_of_mem _ hx, hi⟩
      · rintro ⟨x, hx, hi⟩
        rcases List.mem_cons.mp hx with rfl | hx
        · exact absurd ((Contains_iff_occurs _ _).mpr hi) h
        · exact ⟨x, hx, hi⟩

theorem searchLoop_spec (searchList options : List GoString) :
    (∃ pre o post, options = pre ++ o :: post ∧ searchLoop searchList options = o
        ∧ (∃ item ∈ searchList, item <:+: o)
        ∧ ∀ p ∈ pre, ∀ item ∈ searchList, ¬ item <:+: p)
    ∨ (searchLoop searchList options = []
        ∧ ∀ o ∈ options, ∀ item ∈ searchList, ¬ item <:+: o) := by
  induction options with
  | nil => right; simp [searchLoop]
  | cons o rest ih =>
    rw [searchLoop]
    by_cases h : matchesAny o searchList = true
    · left
      rw [if_pos h]
      exact ⟨[], o, rest, rfl, rfl, (matchesAny_iff _ _).mp h, by simp⟩
    · rw [if_neg h]
      have hno : ∀ item ∈ searchList, ¬ item <:+: o := fun item hi hinf =>
        h ((matchesAny_iff _ _).mpr ⟨item, hi, hinf⟩)
      rcases ih with ⟨pre, o', post, he, hr, hm, hp⟩ | ⟨hr, hn⟩
      · left
        refine ⟨o :: pre, o', post, by rw [he]; rfl, hr, hm, ?_⟩
        intro p hp'
        rcases List.mem_cons.mp hp' with rfl | hp'
        · exact hno
        · exact hp p hp'
      · right
        refine ⟨hr, ?_⟩
        intro x hx
        rcases List.mem_cons.mp hx with rfl | hx
        · exact hno
        · exact hn x hx

theorem searchLoop_mem_or_nil (searchList options : List GoString) :
    searchLoop searchList options ∈ options ∨ searchLoop searchList options = [] := by
  rcases searchLoop_spec searchList options with ⟨pre, o, post, he, hr, _, _⟩ | ⟨hr, _⟩
  · left; rw [hr, he]; simp
  · right; exact hr

/-- C2. `searchOptions` splits the search buffer on commas (the terms joined by commas
give the buffer back and no term holds a comma), and returns the first option, in the
original order, of which some term is a substring; when no option has a term as a
substring it returns the empty string.  On `apple, banana, apricot` the buffer `ap`
gives `apple`, and on `red, green, blue` the buffer `re,lu` gives `red`. -/
theorem searchOptions_first_match (options : List GoString) (searchText : GoString) :
    (List.intercalate [comma] (Split searchText comma) = searchText
      ∧ ∀ term ∈ Split searchText comma, comma ∉ term)
    ∧ ((∃ pre o post, options = pre ++ o :: post ∧ searchOptions options searchText = o
          ∧ (∃ term ∈ Split searchText comma, term <:+: o)
          ∧ ∀ p ∈ pre, ∀ term ∈ Split searchText comma, ¬ term <:+: p)
        ∨ (searchOptions options searchText = []
          ∧ ∀ o ∈ options, ∀ term ∈ Split searchText comma, ¬ term <:+: o))
    ∧ searchOptions [ascii "apple", ascii "banana", ascii "apricot"] (ascii "ap") = ascii "apple"
    ∧ searchOptions [ascii "red", ascii "green", ascii "blue"] (ascii "re,lu") = ascii "red" :=
  ⟨⟨intercalate_Split _ _, not_mem_of_mem_Split _ _⟩,
    searchLoop_spec (Split searchText comma) options, by decide, by decide⟩

/-! ## `prevIndex` and `nextIndex` -/

theorem getD_mem (options : List GoString) (i : Nat) (h : i < options.length) :
    options.getD i [] ∈ options := by
  rw [List.getD_eq_getElem options [] h]
  exact List.getElem_mem h

theorem prevIndexLoop_mem (options : List GoString) (currentIndex : GoString)
    (hcur : currentIndex ∈ options) :
    ∀ (rest visited : List GoString), options = visited ++ rest →
      prevIndexLoop options currentIndex visited.length rest ∈ options := by
  intro rest
  induction rest with
  | nil => intro visited _; simpa [prevIndexLoop] using hcur
  | cons opt rest ih =>
    intro visited hv
    have hlen : options.length = visited.length + (rest.length + 1) := by
      rw [hv]; simp
    rw [prevIndexLoop]
    split
    · split
      · exact getD_mem _ _ (by omega)
      · exact getD_mem _ _ (by omega)
    · have := ih (visited ++ [opt]) (by rw [hv]; simp)
      simpa using this

theorem prevIndex_mem (options : List GoString) (currentIndex : GoString)
    (hcur : currentIndex ∈ options) : prevIndex options currentIndex ∈ options :=
  prevIndexLoop_mem options currentIndex hcur options [] rfl

theorem nextIndexLoop_mem (options : List GoString) (currentIndex : GoString)
    (hcur : currentIndex ∈ options) :
    ∀ (rest visited : List GoString), options = visited ++ rest →
      nextIndexLoop options currentIndex visited.length rest ∈ options := by
  intro rest
  induction rest with
  | nil => intro visited _; simpa [nextIndexLoop] using hcur
  | cons opt rest ih =>
    intro visited hv
    have hlen : options.length = visited.length + (rest.length + 1) := by
      rw [hv]; simp
    rw [nextIndexLoop]
    split
    · split
      · exact getD_mem _ _ (by omega)
      · exact getD_mem _ _ (by omega)
    · have := ih (visited ++ [opt]) (by rw [hv]; simp)
      simpa using this

theorem nextIndex_mem (options : List GoString) (currentIndex : GoString)
    (hcur : currentIndex ∈ options) : nextIndex options currentIndex ∈ options :=
  nextIndexLoop_mem options currentIndex hcur options [] rfl

theorem getD_zero_eq_head (options : List GoString) (h : options ≠ []) :
    options.getD 0 [] = options.head h := by
  cases options with
  | nil => exact absurd rfl h
  | cons o rest => rfl

theorem getD_last_eq_getLast (options : List GoString) (h : options ≠ []) :
    options.getD (options.length - 1) [] = options.getLast h := by
  have hlen : options.length - 1 < options.length :=
    Nat.sub_lt (List.length_pos.mpr h) Nat.one_pos
  rw [List.getD_eq_getElem options [] hlen, List.getLast_eq_getElem]

theorem nextIndexLoop_last (options : List GoString) :
    ∀ (rest visited : List GoString) (hr : rest ≠ []), options = visited ++ rest →
      rest.getLast hr ∉ rest.dropLast →
      nextIndexLoop options (rest.getLast hr) visited.length rest = options.getD 0 [] := by
  intro rest
  induction rest with
  | nil => intro _ hr; exact absurd rfl hr
  | cons opt rest ih =>
    intro visited hr hv hnot
    have hlen : options.length = visited.length + (rest.length + 1) := by
      rw [hv]; simp
    cases rest with
    | nil =>
      simp only [List.getLast_singleton]
      rw [nextIndexLoop, if_pos rfl, if_neg (by simp at hlen; omega)]
    | cons opt2 rest2 =>
      have hlast : (opt :: opt2 :: rest2).getLast hr = (opt2 :: rest2).getLast (by simp) := by
        simp
      have hne : opt ≠ (opt :: opt2 :: rest2).getLast hr := by
        intro e
        apply hnot
        rw [← e]
        simp [List.dropLast]
      rw [nextIndexLoop, if_neg hne]
      have hnot2 : (opt2 :: rest2).getLast (by simp) ∉ (opt2 :: rest2).dropLast := by
        intro hm
        apply hnot
        rw [hlast]
        simp only [List.dropLast_cons₂]
        exact List.mem_cons_of_mem _ hm
      have := ih (visited ++ [opt]) (by simp) (by rw [hv]; simp) hnot2
      rw [hlast]
      simpa using this

/-- C3 (amended). For every non-empty option sequence, `prevIndex` from the first option
gives the last option; and when the value of the last option does not occur at an
earlier position, `nextIndex` from the last option gives the first option. -/
theorem wrap_around (options : List GoString) (h : options ≠ []) :
    prevIndex options (options.head h) = options.getLast h
    ∧ (options.getLast h ∉ options.dropLast →
        nextIndex options (options.getLast h) = options.head h) := by
  constructor
  · cases options with
    | nil => exact absurd rfl h
    | cons o rest =>
      have := getD_last_eq_getLast (o :: rest) h
      simp only [prevIndex, prevIndexLoop, List.head_cons, if_true]
      simpa using this
  · intro hnot
    have := nextIndexLoop_last options options [] h rfl hnot
    rw [getD_zero_eq_head options h] at this
    exact this

/-- The amended C3 at the options `a, b, c`. -/
theorem wrap_around_witness :
    prevIndex [ascii "a", ascii "b", ascii "c"] (ascii "a") = ascii "c"
    ∧ nextIndex [ascii "a", ascii "b", ascii "c"] (ascii "c") = ascii "a" := by
  have h := wrap_around [ascii "a", ascii "b", ascii "c"] (by decide)
  exact ⟨h.1, h.2 (by decide)⟩

/-- C3 as stated fails: on the options `a, b, a` the last option is `a`, and
`nextIndex` from it gives `b`, not the first option `a`. -/
theorem wrap_around_fails_with_duplicates :
    ¬ (∀ (options : List GoString) (h : options ≠ []),
        nextIndex options (options.getLast h) = options.head h
        ∧ prevIndex options (options.head h) = options.getLast h) := by
  intro H
  have := (H [ascii "a", ascii "b", ascii "a"] (by decide)).1
  revert this
  decide

/-! ## `handleInput`: one call -/

theorem handleInput_index_mem (T : UnicodeTables) (tty : Bool) (char : Rune) (options : List GoString)
    (st : State) (input : List Rune) (h : st.index ∈ options) :
    (handleInput T tty char options st input).state.index ∈ options := by
  unfold handleInput
  split
  · split
    · exact h
    · split
      · split
        · exact h
        · split
          · exact prevIndex_mem options st.index h
          · split
            · exact nextIndex_mem options st.index h
            · exact h
      · exact h
  · split
    · split
      · exact h
      · exact h
    · split
      · split
        · exact h
        · exact h
      · split
        · simp only [Handled.state]
          split
          · rcases searchLoop_mem_or_nil (Split (st.searchText ++ encodeRune char) comma) options
              with hm | hn
            · exact hm
            · next hne => exact absurd hn hne
          · exact h
        · exact h

theorem comma_mem_encodeRune (r : Nat) (h : comma ∈ encodeRune r) : r = comma := by
  unfold encodeRune at h
  unfold comma at *
  split at h
  · simp at h; omega
  · split at h
    · simp at h; omega
    · split at h
      · simp at h
      · split at h
        · simp at h; omega
        · simp at h; omega

theorem isValidInput_comma (T : UnicodeTables) : isValidInput T (encodeRune comma) = false := rfl

theorem not_mem_take (s : GoString) (n : Nat) (h : comma ∉ s) : comma ∉ s.take n :=
  fun hm => h (List.mem_of_mem_take hm)

theorem handleInput_no_comma (T : UnicodeTables) (tty : Bool) (char : Rune) (options : List GoString)
    (st : State) (input : List Rune) (h : comma ∉ st.searchText) :
    comma ∉ (handleInput T tty char options st input).state.searchText := by
  unfold handleInput
  split
  · split
    · exact h
    · split
      · split
        · exact h
        · split
          · exact h
          · split
            · exact h
            · exact h
      · exact h
  · split
    · split
      · exact h
      · exact h
    · split
      · split
        · exact not_mem_take _ _ h
        · exact h
      · split
        · next hv =>
          simp only [Handled.state]
          intro hm
          rcases List.mem_append.mp hm with hm | hm
          · exact h hm
          · have := comma_mem_encodeRune char hm
            subst this
            rw [isValidInput_comma] at hv
            exact absurd hv (by decide)
        · exact h

/-! ## The loop: invariants -/

theorem afterRunes_snd_length (k : Nat) (rest : List Arrival) :
    (afterRunes k rest).2.length ≤ rest.length := by
  induction rest generalizing k with
  | nil => cases k <;> simp [afterRunes]
  | cons a rest ih =>
    cases k with
    | zero => simp [afterRunes]
    | succ k =>
      cases a with
      | char r => simp only [afterRunes, List.length_cons]; exact Nat.le_succ_of_le (ih k)
      | sig s => simp only [afterRunes, List.length_cons]; exact Nat.le_succ_of_le (ih (k + 1))

theorem afterRunes_length (k : Nat) (rest : List Arrival) :
    (((afterRunes k rest).1.take 1).map Arrival.sig ++ (afterRunes k rest).2).length
      ≤ rest.length := by
  induction rest generalizing k with
  | nil => cases k <;> simp [afterRunes]
  | cons a rest ih =>
    cases k with
    | zero => simp [afterRunes]
    | succ k =>
      cases a with
      | char r =>
        simp only [afterRunes, List.length_cons]
        exact Nat.le_succ_of_le (ih k)
      | sig s =>
        have := afterRunes_snd_length (k + 1) rest
        simp only [afterRunes, List.length_append, List.length_map, List.length_cons,
          List.take_succ_cons, List.take_zero, List.length_nil]
        omega

/-- With more fuel than arrivals the loop gives a result, and a property of the state
that every call of `handleInput` keeps holds in it. -/
theorem mainLoop_invariant (env : Env) (options : List GoString) (P : State → Prop)
    (hP : ∀ (c : Rune) (st : State) (input : List Rune), P st →
      P (handleInput env.tables env.isTerminal c options st input).state) :
    ∀ (fuel : Nat) (st : State) (arrivals : List Arrival) (out : List Effect),
      arrivals.length < fuel → P st →
      ∃ s, mainLoop env options fuel st arrivals out = some s ∧ P s.state := by
  intro fuel
  induction fuel with
  | zero => intro st arrivals out h; exact absurd h (Nat.not_lt_zero _)
  | succ fuel ih =>
    intro st arrivals out hlen hst
    cases arrivals with
    | nil => exact ⟨_, rfl, hst⟩
    | cons a rest =>
      have hrest : rest.length < fuel := by simpa using hlen
      cases a with
      | sig s =>
        cases s with
        | SIGWINCH => exact ih st rest _ hrest hst
        | SIGINT => exact ⟨_, rfl, hst⟩
      | char c =>
        have hstep := hP c st (runesIn rest) hst
        rw [mainLoop]
        cases hh : handleInput env.tables env.isTerminal c options st (runesIn rest) with
        | exited code st1 o => rw [hh] at hstep; exact ⟨_, rfl, hstep⟩
        | blocked st1 o => rw [hh] at hstep; exact ⟨_, rfl, hstep⟩
        | returned st1 input1 o =>
          rw [hh] at hstep
          exact ih st1 _ _ (Nat.lt_of_le_of_lt (afterRunes_length _ rest) hrest) hstep

theorem main_invariant (env : Env) (options : List GoString) (P : State → Prop)
    (hP : ∀ (c : Rune) (st : State) (input : List Rune), P st →
      P (handleInput env.tables env.isTerminal c options st input).state)
    (h0 : P (initialState options)) (arrivals : List Arrival) :
    ∃ s, main env options arrivals = some s ∧ P s.state :=
  mainLoop_invariant env options P hP _ _ arrivals _ (Nat.lt_succ_self _) h0

theorem initialState_index_mem (options : List GoString) (h : options ≠ []) :
    (initialState options).index ∈ options := by
  cases options with
  | nil => exact absurd rfl h
  | cons o rest => exact List.mem_cons_self _ _

/-! ## The loop on a sequence of logical events -/

theorem mainLoop_char_returned (env : Env) (options : List GoString) (fuel : Nat) (st st1 : State)
    (c : Rune) (rest : List Arrival) (input1 : List Rune) (out o : List Effect)
    (h : handleInput env.tables env.isTerminal c options st (runesIn rest) = .returned st1 input1 o) :
    mainLoop env options (fuel + 1) st (.char c :: rest) out
      = mainLoop env options fuel st1
          (((afterRunes ((runesIn rest).length - input1.length) rest).1.take 1).map Arrival.sig
            ++ (afterRunes ((runesIn rest).length - input1.length) rest).2)
          (out ++ o
            ++ [.print (clearAndDraw env.title st1.searchText env.wsCol options st1.index)]) := by
  rw [mainLoop, h]

theorem handleInput_plain (T : UnicodeTables) (tty : Bool) (c : Rune) (options : List GoString) (st : State)
    (input : List Rune) (h13 : c ≠ 13) (h27 : c ≠ 0x1B) :
    ∃ st1 o, handleInput T tty c options st input = .returned st1 input o := by
  unfold handleInput
  rw [if_neg h27, if_neg h13]
  split
  · split
    · exact ⟨_, _, rfl⟩
    · exact ⟨_, _, rfl⟩
  · split
    · exact ⟨_, _, rfl⟩
    · exact ⟨_, _, rfl⟩

theorem eventArrivals_cons (e : Event) (events : List Event) :
    eventArrivals (e :: events) = e.runes.map Arrival.char ++ eventArrivals events := by
  simp [eventArrivals]

theorem mainLoop_plain (env : Env) (options : List GoString) (fuel : Nat) (st : State)
    (c : Rune) (rest : List Arrival) (out : List Effect) (h13 : c ≠ 13) (h27 : c ≠ 0x1B) :
    ∃ st1 out1, mainLoop env options (fuel + 1) st (.char c :: rest) out
      = mainLoop env options fuel st1 rest out1 := by
  obtain ⟨st1, o, h⟩ := handleInput_plain env.tables env.isTerminal c options st (runesIn rest) h13 h27
  refine ⟨st1, out ++ o
    ++ [.print (clearAndDraw env.title st1.searchText env.wsCol options st1.index)], ?_⟩
  rw [mainLoop_char_returned env options fuel st st1 c rest (runesIn rest) out o h]
  simp [afterRunes]

theorem mainLoop_cursor (env : Env) (options : List GoString) (fuel : Nat) (st : State)
    (final : Rune) (rest : List Arrival) (out : List Effect) :
    ∃ st1 out1, mainLoop env options (fuel + 1) st
        (.char 0x1B :: .char 0x5B :: .char final :: rest) out
      = mainLoop env options fuel st1 rest out1 := by
  have h : ∃ st1, handleInput env.tables env.isTerminal 0x1B options st
      (runesIn (.char 0x5B :: .char final :: rest)) = .returned st1 (runesIn rest) [] := by
    simp only [handleInput, runesIn, if_true]
    split
    · exact ⟨_, rfl⟩
    · split
      · exact ⟨_, rfl⟩
      · exact ⟨_, rfl⟩
  obtain ⟨st1, h⟩ := h
  refine ⟨st1, out ++ []
    ++ [.print (clearAndDraw env.title st1.searchText env.wsCol options st1.index)], ?_⟩
  rw [mainLoop_char_returned env options fuel st st1 _ _ (runesIn rest) out [] h]
  have hk : (runesIn (.char 0x5B :: .char final :: rest)).length - (runesIn rest).length = 2 := by
    simp only [runesIn, List.length_cons]
    omega
  rw [hk]
  simp [afterRunes]

/-- On a sequence of events whose characters are neither Enter nor ESC, the loop takes
every event and then waits at its `select`. -/
theorem mainLoop_events (env : Env) (options : List GoString) :
    ∀ (events : List Event), (∀ c, Event.character c ∈ events → c ≠ 13 ∧ c ≠ 0x1B) →
      ∀ (fuel : Nat) (st : State) (out : List Effect), events.length < fuel →
        ∃ st1 out1, mainLoop env options fuel st (eventArrivals events) out
          = some (.waiting st1 out1) := by
  intro events
  induction events with
  | nil =>
    intro _ fuel st out hf
    cases fuel with
    | zero => exact absurd hf (Nat.not_lt_zero _)
    | succ fuel => exact ⟨st, out, rfl⟩
  | cons e events ih =>
    intro hev fuel st out hf
    have hev' : ∀ c, Event.character c ∈ events → c ≠ 13 ∧ c ≠ 0x1B :=
      fun c hc => hev c (List.mem_cons_of_mem _ hc)
    cases fuel with
    | zero => exact absurd hf (Nat.not_lt_zero _)
    | succ fuel =>
      have hf' : events.length < fuel := by simpa using hf
      rw [eventArrivals_cons]
      cases e with
      | cursorUp =>
        obtain ⟨st1, out1, h⟩ := mainLoop_cursor env options fuel st 0x41 (eventArrivals events) out
        simp only [Event.runes, List.map, List.cons_append, List.nil_append]
        rw [h]
        exact ih hev' fuel st1 out1 hf'
      | cursorDown =>
        obtain ⟨st1, out1, h⟩ := mainLoop_cursor env options fuel st 0x42 (eventArrivals events) out
        simp only [Event.runes, List.map, List.cons_append, List.nil_append]
        rw [h]
        exact ih hev' fuel st1 out1 hf'
      | character c =>
        have hc := hev c (List.mem_cons_self _ _)
        obtain ⟨st1, out1, h⟩ :=
          mainLoop_plain env options fuel st c (eventArrivals events) out hc.1 hc.2
        simp only [Event.runes, List.map, List.cons_append, List.nil_append]
        rw [h]
        exact ih hev' fuel st1 out1 hf'
      | backspace =>
        obtain ⟨st1, out1, h⟩ :=
          mainLoop_plain env options fuel st 127 (eventArrivals events) out (by decide) (by decide)
        simp only [Event.runes, List.map, List.cons_append, List.nil_append]
        rw [h]
        exact ih hev' fuel st1 out1 hf'

theorem events_length_le (events : List Event) :
    events.length ≤ (eventArrivals events).length := by
  induction events with
  | nil => simp [eventArrivals]
  | cons e events ih =>
    rw [eventArrivals_cons]
    cases e <;> simp [Event.runes] <;> omega

/-- C1. For every non-empty option sequence, with `index` seeded to the first option and
an empty search buffer, after any finite sequence of cursor-up, cursor-down, character
and backspace events handled by `handleInput` the loop waits for the next event and
`index` is a value present in `options`. -/
theorem current_mem_options (env : Env) (options : List GoString) (events : List Event)
    (hne : options ≠ [])
    (hev : ∀ c, Event.character c ∈ events → c ≠ 13 ∧ c ≠ 0x1B) :
    ∃ st out, main env options (eventArrivals events) = some (.waiting st out)
      ∧ st.index ∈ options := by
  obtain ⟨st, out, hw⟩ := mainLoop_events env options events hev
    ((eventArrivals events).length + 1) (initialState options)
    [.print (clearAndDraw env.title (initialState options).searchText env.wsCol options
      (initialState options).index)]
    (Nat.lt_succ_of_le (events_length_le events))
  obtain ⟨s, hs, hP⟩ := main_invariant env options (fun st => st.index ∈ options)
    (fun c st input h => handleInput_index_mem env.tables env.isTerminal c options st input h)
    (initialState_index_mem options hne) (eventArrivals events)
  have hmain : main env options (eventArrivals events) = some (.waiting st out) := hw
  rw [hmain] at hs
  cases hs
  exact ⟨st, out, hmain, hP⟩

/-- C1 on the options `x, y, z` and the events down, `z`, backspace, up. -/
theorem current_mem_options_witness :
    ∃ st out, main sampleEnv [ascii "x", ascii "y", ascii "z"]
        (eventArrivals [.cursorDown, .character 0x7A, .backspace, .cursorUp])
        = some (.waiting st out)
      ∧ st.index ∈ [ascii "x", ascii "y", ascii "z"] :=
  current_mem_options sampleEnv [ascii "x", ascii "y", ascii "z"]
    [.cursorDown, .character 0x7A, .backspace, .cursorUp] (by decide)
    (by intro c hc; simp at hc; subst hc; exact ⟨by decide, by decide⟩)

/-! ## UTF-8: decoding what `string(r)` encodes -/

theorem decodeRune_ascii (b : Nat) (t : GoString) (h : b < 0x80) :
    decodeRune (b :: t) = (b, 1) := by
  have hf : first b = 0xF0 := by unfold first; rw [if_pos h]
  simp only [decodeRune, hf]
  simp

theorem decodeRune_two (s0 s1 : Nat) (t : GoString) (h0 : 0xC2 ≤ s0) (h0' : s0 < 0xE0)
    (h1 : 0x80 ≤ s1) (h1' : s1 ≤ 0xBF) :
    decodeRune (s0 :: s1 :: t) = (s0 % 32 * 64 + s1 % 64, 2) := by
  have hf : first s0 = 0x02 := by
    unfold first
    rw [if_neg (by omega), if_neg (by omega), if_pos h0']
  simp only [decodeRune, hf, acceptRange]
  simp
  rw [if_neg (by omega), if_neg (by omega)]

theorem decodeRune_three (s0 s1 s2 lo hi : Nat) (t : GoString) (x : Nat) (hf : first s0 = x)
    (hx : x < 0xF0) (hsz : x % 8 = 3) (ha : acceptRange (x / 16) = (lo, hi))
    (h1 : lo ≤ s1) (h1' : s1 ≤ hi) (h2 : 0x80 ≤ s2) (h2' : s2 ≤ 0xBF) :
    decodeRune (s0 :: s1 :: s2 :: t) = (s0 % 16 * 4096 + s1 % 64 * 64 + s2 % 64, 3) := by
  simp only [decodeRune, hf, ha, hsz]
  rw [if_neg (by omega), if_neg (by simp), if_neg (by omega), if_neg (by omega),
    if_neg (by omega), if_pos (by omega)]

theorem decodeRune_four (s0 s1 s2 s3 lo hi : Nat) (t : GoString) (x : Nat) (hf : first s0 = x)
    (hx : x < 0xF0) (hsz : x % 8 = 4) (ha : acceptRange (x / 16) = (lo, hi))
    (h1 : lo ≤ s1) (h1' : s1 ≤ hi) (h2 : 0x80 ≤ s2) (h2' : s2 ≤ 0xBF)
    (h3 : 0x80 ≤ s3) (h3' : s3 ≤ 0xBF) :
    decodeRune (s0 :: s1 :: s2 :: s3 :: t)
      = (s0 % 8 * 262144 + s1 % 64 * 4096 + s2 % 64 * 64 + s3 % 64, 4) := by
  simp only [decodeRune, hf, ha, hsz]
  rw [if_neg (by omega), if_neg (by simp), if_neg (by omega), if_neg (by omega),
    if_neg (by omega), if_neg (by omega), if_neg (by omega)]

theorem first_three (s0 : Nat) (h : 0xE0 ≤ s0) (h' : s0 ≤ 0xEF) :
    first s0 = (if s0 = 0xE0 then 0x13 else if s0 = 0xED then 0x23 else 0x03) := by
  unfold first
  split_ifs <;> first | rfl | omega

theorem first_four (s0 : Nat) (h : 0xF0 ≤ s0) (h' : s0 ≤ 0xF4) :
    first s0 = (if s0 = 0xF0 then 0x34 else if s0 = 0xF4 then 0x44 else 0x04) := by
  unfold first
  split_ifs <;> first | rfl | omega

/-- A valid code point is the only rune of its own encoding. -/
theorem runesOf_encodeRune (r : Nat) (h : r ≤ 0x10FFFF) (hs : ¬ (0xD800 ≤ r ∧ r ≤ 0xDFFF)) :
    runesOf (encodeRune r) = [r] := by
  unfold encodeRune
  dsimp only [Rune]
  split
  · next h1 =>
    simp only [runesOf, List.length, rangeRunes, decodeRune_ascii r [] (by omega)]
  · split
    · next h1 h2 =>
      have hd := decodeRune_two (0xC0 + r / 64) (0x80 + r % 64) [] (by omega) (by omega)
        (by omega) (by omega)
      simp only [runesOf, List.length, rangeRunes, hd]
      simp [rangeRunes]
      show ((_ : Nat) = _)
      omega
    · split
      · omega
      · split
        · next h1 h2 h3 h4 =>
          have hf := first_three (0xE0 + r / 4096) (by omega) (by omega)
          by_cases c0 : 0xE0 + r / 4096 = 0xE0
          · rw [if_pos c0] at hf
            have hd := decodeRune_three (0xE0 + r / 4096) (0x80 + r / 64 % 64) (0x80 + r % 64)
              0xA0 0xBF [] 0x13 hf (by decide) (by decide) (by decide) (by omega) (by omega)
              (by omega) (by omega)
            simp only [runesOf, List.length, rangeRunes, hd]
            simp [rangeRunes]
            show ((_ : Nat) = _)
            omega
          · rw [if_neg c0] at hf
            by_cases c1 : 0xE0 + r / 4096 = 0xED
            · rw [if_pos c1] at hf
              have hd := decodeRune_three (0xE0 + r / 4096) (0x80 + r / 64 % 64) (0x80 + r % 64)
                0x80 0x9F [] 0x23 hf (by decide) (by decide) (by decide) (by omega) (by omega)
                (by omega) (by omega)
              simp only [runesOf, List.length, rangeRunes, hd]
              simp [rangeRunes]
              show ((_ : Nat) = _)
              omega
            · rw [if_neg c1] at hf
              have hd := decodeRune_three (0xE0 + r / 4096) (0x80 + r / 64 % 64) (0x80 + r % 64)
                0x80 0xBF [] 0x03 hf (by decide) (by decide) (by decide) (by omega) (by omega)
                (by omega) (by omega)
              simp only [runesOf, List.length, rangeRunes, hd]
              simp [rangeRunes]
              show ((_ : Nat) = _)
              omega
        · next h1 h2 h3 h4 =>
          have hf := first_four (0xF0 + r / 262144) (by omega) (by omega)
          by_cases c0 : 0xF0 + r / 262144 = 0xF0
          · rw [if_pos c0] at hf
            have hd := decodeRune_four (0xF0 + r / 262144) (0x80 + r / 4096 % 64)
              (0x80 + r / 64 % 64) (0x80 + r % 64)
              0x90 0xBF [] 0x34 hf (by decide) (by decide) (by decide) (by omega) (by omega)
              (by omega) (by omega) (by omega) (by omega)
            simp only [runesOf, List.length, rangeRunes, hd]
            simp [rangeRunes]
            show ((_ : Nat) = _)
            omega
          · rw [if_neg c0] at hf
            by_cases c1 : 0xF0 + r / 262144 = 0xF4
            · rw [if_pos c1] at hf
              have hd := decodeRune_four (0xF0 + r / 262144) (0x80 + r / 4096 % 64)
                (0x80 + r / 64 % 64) (0x80 + r % 64)
                0x80 0x8F [] 0x44 hf (by decide) (by decide) (by decide) (by omega) (by omega)
                (by omega) (by omega) (by omega) (by omega)
              simp only [runesOf, List.length, rangeRunes, hd]
              simp [rangeRunes]
              show ((_ : Nat) = _)
              omega
            · rw [if_neg c1] at hf
              have hd := decodeRune_four (0xF0 + r / 262144) (0x80 + r / 4096 % 64)
                (0x80 + r / 64 % 64) (0x80 + r % 64)
                0x80 0xBF [] 0x04 hf (by decide) (by decide) (by decide) (by omega) (by omega)
                (by omega) (by omega) (by omega) (by omega)
              simp only [runesOf, List.length, rangeRunes, hd]
              simp [rangeRunes]
              show ((_ : Nat) = _)
              omega

/-- For a valid code point `isValidInput(string(r))` is the test of the four classes. -/
theorem isValidInput_encodeRune (T : UnicodeTables) (r : Nat) (h : r ≤ 0x10FFFF)
    (hs : ¬ (0xD800 ≤ r ∧ r ≤ 0xDFFF)) :
    isValidInput T (encodeRune r) = (IsLetter T r || IsSpace T r || IsHan T r || IsNumber T r) := by
  rw [isValidInput, runesOf_encodeRune r h hs]
  simp

/-! ## Confirm, backspace, escape sequences and rejected runes -/

/-- On a terminal, where `oldState` is set, rune 13 ends the process with exit code 0 in
every state, and the last thing written to standard output is `index` followed by a
newline; when 13 is the first thing to arrive on a non-empty option sequence the option
written is the first option. -/
theorem confirm_on_terminal (env : Env) (options : List GoString) (st : State)
    (input : List Rune) (o : GoString) (rest : List GoString) (arrivals : List Arrival)
    (htty : env.isTerminal = true) :
    handleInput env.tables env.isTerminal 13 options st input
      = .exited 0 st
          [.print clearScreen, .restore, .print normalBuffer, .print (st.index ++ [10])]
    ∧ main env (o :: rest) (.char 13 :: arrivals)
      = some (.exited 0 (initialState (o :: rest))
          [.print (clearAndDraw env.title [] env.wsCol (o :: rest) o),
            .print clearScreen, .restore, .print normalBuffer, .print (o ++ [10])]) := by
  constructor
  · rw [htty]; rfl
  · simp only [main, mainLoop, htty]
    rfl

/-- C4 (the code at the failing input). When standard input is not a terminal `oldState`
is nil, and on rune 13 the unguarded `term.Restore` panics in every state: the process
ends with status 2 after the clear sequence, and `index` is never printed.  On the
options `x, y, z` with 13 as the first arrival nothing but the first drawing and the
clear sequence is written; on a terminal the same run prints `x` and exits with 0. -/
theorem confirm_panics_without_terminal (T : UnicodeTables) (options : List GoString)
    (st : State) (input : List Rune) :
    handleInput T false 13 options st input = .exited 2 st [.print clearScreen]
    ∧ main { tables := sampleTables, title := ascii "pick", isTerminal := false, wsCol := 12 }
        [ascii "x", ascii "y", ascii "z"] [.char 13]
      = some (.exited 2 { index := ascii "x", searchText := [] }
          [.print (clearAndDraw (ascii "pick") [] 12 [ascii "x", ascii "y", ascii "z"]
            (ascii "x")), .print clearScreen])
    ∧ (main sampleEnv [ascii "x", ascii "y", ascii "z"] [.char 13]).map
        (fun s => (s.out.getLast?, s.state.index))
      = some (some (.print (ascii "x\n")), ascii "x") := by
  refine ⟨rfl, ?_, ?_⟩
  · decide
  · decide

/-- Backspace in general: `index` is kept, and the search buffer loses its last byte. -/
theorem backspace_keeps_index (T : UnicodeTables) (tty : Bool) (options : List GoString) (st : State)
    (input : List Rune) :
    (handleInput T tty 127 options st input).state.index = st.index
    ∧ (handleInput T tty 127 options st input).state.searchText
      = st.searchText.take (st.searchText.length - 1) := by
  unfold handleInput
  simp only [show ¬ (127 : Rune) = 0x1B by decide, show ¬ (127 : Rune) = 13 by decide,
    if_false, if_true]
  split
  · exact ⟨rfl, rfl⟩
  · next h =>
    have : st.searchText = [] := by
      cases hs : st.searchText with
      | nil => rfl
      | cons a l => rw [hs] at h; simp at h
    simp [Handled.state, this]

/-- C5 (the code at the failing input). Typing `é` (U+00E9, a letter) into the empty
search buffer puts its two bytes there, one character; the backspace that follows
removes only the last byte, so the buffer still holds one (broken) character instead
of being empty. -/
theorem backspace_removes_one_byte :
    handleInput sampleTables true 0xE9 [ascii "x"] { index := ascii "x", searchText := [] } [127]
      = .returned { index := ascii "x", searchText := [0xC3, 0xA9] } [127]
          [.print [0xC3, 0xA9]]
    ∧ runesOf [0xC3, 0xA9] = [0xE9]
    ∧ handleInput sampleTables true 127 [ascii "x"] { index := ascii "x", searchText := [0xC3, 0xA9] } []
      = .returned { index := ascii "x", searchText := [0xC3] } [] [.print [8, 32, 8]]
    ∧ runesOf [0xC3] = [RuneError] := by
  decide

/-- C6 as stated fails: after ESC the runes `x`, `a` are not consumed as a pair:
`handleInput` takes only `x` and leaves `a` on the channel. -/
theorem escape_consumes_one_rune :
    ¬ (∀ (T : UnicodeTables) (tty : Bool) (options : List GoString) (st : State)
        (c1 c2 : Rune) (input : List Rune),
        ∃ st1 o, handleInput T tty 0x1B options st (c1 :: c2 :: input) = .returned st1 input o) := by
  intro H
  obtain ⟨st1, o, h⟩ := H sampleTables true [ascii "x"]
    { index := ascii "x", searchText := [] } 0x78 0x61 []
  revert h
  simp [handleInput]

/-- C6 (amended). On rune 27 `handleInput` takes one more rune from the channel, and a
second one only when the first is `[`.  For `[` then `A` it sets `index` to
`prevIndex`, for `[` then `B` to `nextIndex`; in every other case the state is
unchanged; nothing is printed.  With no rune left to take it waits. -/
theorem escape_sequence (T : UnicodeTables) (tty : Bool) (options : List GoString) (st : State)
    (input : List Rune) :
    handleInput T tty 0x1B options st [] = .blocked st []
    ∧ handleInput T tty 0x1B options st [0x5B] = .blocked st []
    ∧ (∀ nextChar, nextChar ≠ 0x5B →
        handleInput T tty 0x1B options st (nextChar :: input) = .returned st input [])
    ∧ handleInput T tty 0x1B options st (0x5B :: 0x41 :: input)
        = .returned { st with index := prevIndex options st.index } input []
    ∧ handleInput T tty 0x1B options st (0x5B :: 0x42 :: input)
        = .returned { st with index := nextIndex options st.index } input []
    ∧ (∀ finalChar, finalChar ≠ 0x41 → finalChar ≠ 0x42 →
        handleInput T tty 0x1B options st (0x5B :: finalChar :: input) = .returned st input []) := by
  refine ⟨rfl, rfl, ?_, rfl, rfl, ?_⟩
  · intro nextChar h
    simp [handleInput, h]
  · intro finalChar hA hB
    simp [handleInput, hA, hB]

/-- The amended C6 at the runes `x`, `a` and `[`, `C`, `a` after ESC. -/
theorem escape_sequence_witness :
    handleInput sampleTables true 0x1B [ascii "x"] { index := ascii "x", searchText := [] } [0x78, 0x61]
      = .returned { index := ascii "x", searchText := [] } [0x61] []
    ∧ handleInput sampleTables true 0x1B [ascii "x"] { index := ascii "x", searchText := [] }
        [0x5B, 0x43, 0x61]
      = .returned { index := ascii "x", searchText := [] } [0x61] [] :=
  have h := escape_sequence sampleTables true [ascii "x"]
    { index := ascii "x", searchText := [] } [0x61]
  ⟨h.2.2.1 0x78 (by decide), h.2.2.2.2.2 0x43 (by decide) (by decide)⟩

/-- C7. A rune other than 13, 27 and 127 that `isValidInput` rejects changes nothing:
`handleInput` returns with the same search buffer and the same `index`, takes nothing
from the channel and prints nothing.  Such a rune, when it is a valid code point, is
not a letter, not a space and not a number (and not a Han character either). -/
theorem rejected_rune_no_change (T : UnicodeTables) (tty : Bool) (char : Rune) (options : List GoString)
    (st : State) (input : List Rune) (h13 : char ≠ 13) (h27 : char ≠ 0x1B) (h127 : char ≠ 127)
    (hv : isValidInput T (encodeRune char) = false) :
    handleInput T tty char options st input = .returned st input []
    ∧ (char ≤ 0x10FFFF → ¬ (0xD800 ≤ char ∧ char ≤ 0xDFFF) →
        IsLetter T char = false ∧ IsSpace T char = false ∧ IsNumber T char = false
          ∧ IsHan T char = false) := by
  refine ⟨by simp [handleInput, h13, h27, h127, hv], ?_⟩
  intro hmax hsur
  rw [isValidInput_encodeRune T char hmax hsur] at hv
  simp only [Bool.or_eq_false_iff] at hv
  exact ⟨hv.1.1.1, hv.1.1.2, hv.2, hv.1.2⟩

/-- C7 at the rune `!`. -/
theorem rejected_rune_no_change_witness :
    handleInput sampleTables true 0x21 [ascii "x"] { index := ascii "x", searchText := ascii "a" } []
      = .returned { index := ascii "x", searchText := ascii "a" } [] [] :=
  (rejected_rune_no_change sampleTables true 0x21 [ascii "x"]
    { index := ascii "x", searchText := ascii "a" } [] (by decide) (by decide) (by decide)
    (by decide)).1

/-- C10. Whatever arrives, starting from the empty search buffer the search buffer never
holds a comma and `strings.Split` gives it back as its only term; so whenever
`handleInput` calls `searchOptions` (a rune other than 13, 27, 127 that `isValidInput`
accepts) the buffer it passes splits into exactly one term, and the result is the first
option that contains the whole buffer. -/
theorem search_buffer_has_no_comma (env : Env) (options : List GoString)
    (arrivals : List Arrival) :
    ∃ s, main env options arrivals = some s
      ∧ comma ∉ s.state.searchText
      ∧ Split s.state.searchText comma = [s.state.searchText]
      ∧ ∀ (char : Rune) (input : List Rune), char ≠ 13 → char ≠ 0x1B → char ≠ 127 →
          isValidInput env.tables (encodeRune char) = true →
          (handleInput env.tables env.isTerminal char options s.state input).state.searchText
            = s.state.searchText ++ encodeRune char
          ∧ Split (s.state.searchText ++ encodeRune char) comma
            = [s.state.searchText ++ encodeRune char]
          ∧ searchOptions options (s.state.searchText ++ encodeRune char)
            = searchLoop [s.state.searchText ++ encodeRune char] options := by
  obtain ⟨s, hs, hP⟩ := main_invariant env options (fun st => comma ∉ st.searchText)
    (fun c st input h => handleInput_no_comma env.tables env.isTerminal c options st input h)
    (by simp [initialState]) arrivals
  refine ⟨s, hs, hP, Split_eq_singleton _ _ hP, ?_⟩
  intro char input h13 h27 h127 hv
  have hstep := handleInput_no_comma env.tables env.isTerminal char options s.state input hP
  have htext : (handleInput env.tables env.isTerminal char options s.state input).state.searchText
      = s.state.searchText ++ encodeRune char := by
    simp [handleInput, h13, h27, h127, hv, Handled.state]
  rw [htext] at hstep
  refine ⟨htext, Split_eq_singleton _ _ hstep, ?_⟩
  rw [searchOptions, Split_eq_singleton _ _ hstep]

/-- C10 on the options `x, y, z` after the runes `a`, `,`, `b`, and then for the rune `c`. -/
theorem search_buffer_has_no_comma_witness :
    ∃ s, main sampleEnv [ascii "x", ascii "y", ascii "z"] [.char 0x61, .char 0x2C, .char 0x62]
        = some s
      ∧ comma ∉ s.state.searchText
      ∧ Split (s.state.searchText ++ encodeRune 0x63) comma
        = [s.state.searchText ++ encodeRune 0x63] := by
  obtain ⟨s, hs, h1, _, h3⟩ := search_buffer_has_no_comma sampleEnv
    [ascii "x", ascii "y", ascii "z"] [.char 0x61, .char 0x2C, .char 0x62]
  exact ⟨s, hs, h1, (h3 0x63 [] (by decide) (by decide) (by decide) (by decide)).2.1⟩

/-! ## The interrupt signal -/

/-- At its `select` the loop answers an interrupt in every state: it restores the
terminal mode when standard input is a terminal, clears the screen and exits with
code 1. -/
theorem interrupt_at_select (env : Env) (options : List GoString) (fuel : Nat) (st : State)
    (rest : List Arrival) (out : List Effect) :
    mainLoop env options (fuel + 1) st (.sig .SIGINT :: rest) out
      = some (.exited 1 st
          (out ++ (if env.isTerminal then [.restore] else []) ++ [.print clearScreen])) :=
  rfl

/-- C8 (the code at the failing input). When ESC has arrived and the interrupt comes
while `handleInput` waits on `<-input` for the next rune, the interrupt stays on
`sigs`: nothing is restored and the process does not exit, in every state; on the
options `x, y, z` the session stands blocked after the first drawing.  The same
interrupt arriving at the `select` restores the terminal and exits with code 1. -/
theorem interrupt_unanswered_inside_escape (env : Env) (options : List GoString) (st : State)
    (out : List Effect) :
    mainLoop env options 3 st [.char 0x1B, .sig .SIGINT] out
      = some (.blocked st [.SIGINT] out)
    ∧ main sampleEnv [ascii "x", ascii "y", ascii "z"] [.char 0x1B, .sig .SIGINT]
      = some (.blocked { index := ascii "x", searchText := [] } [.SIGINT]
          [.print (clearAndDraw (ascii "pick") [] 12 [ascii "x", ascii "y", ascii "z"]
            (ascii "x"))])
    ∧ main sampleEnv [ascii "x", ascii "y", ascii "z"] [.sig .SIGINT]
      = some (.exited 1 { index := ascii "x", searchText := [] }
          [.print (clearAndDraw (ascii "pick") [] 12 [ascii "x", ascii "y", ascii "z"]
            (ascii "x")), .restore, .print clearScreen]) := by
  refine ⟨?_, ?_, ?_⟩
  · simp [mainLoop, handleInput, runesIn, signalsIn]
  · decide
  · decide

/-! ## Rendering -/

theorem padString_minus (wid : Nat) (s : GoString) :
    padString true wid s = s ++ List.replicate (wid - RuneCountInString s) 32 := by
  unfold padString
  split
  · next h => subst h; simp
  · simp

theorem drawOptions_eq_flatMap (cols : Nat) (index : GoString) (options : List GoString) :
    drawOptions cols index options
      = options.flatMap fun opt =>
          (if opt = index then purpleBackground ++ whiteText else resetColor)
            ++ (ascii " " ++ opt
                ++ List.replicate (cols - RuneCountInString (ascii " " ++ opt)) 32)
            ++ ascii "\n\r" := by
  induction options with
  | nil => rfl
  | cons opt rest ih =>
    rw [drawOptions, ih, padString_minus]
    simp [List.flatMap_cons]

/-- C9 as stated fails: with 5 columns the option `ab` is drawn as ` ab  ` (one space,
the option, then the padding), and the right-justified `   ab` occurs nowhere in what
`clearAndDraw` prints. -/
theorem options_not_right_justified :
    drawOptions 5 (ascii "ab") [ascii "ab"]
      = purpleBackground ++ whiteText ++ ascii " ab  \n\r"
    ∧ rightJustified 5 (ascii "ab") = ascii "   ab"
    ∧ ¬ (rightJustified 5 (ascii "ab")
          <:+: clearAndDraw (ascii "t") [] 5 [ascii "ab"] (ascii "ab")) := by
  refine ⟨by decide, by decide, ?_⟩
  rw [← Contains_iff_occurs]
  decide

/-- C9 (amended). `clearAndDraw` prints, after the header, one row for each option in
order: the styling, one space, the option, then spaces on the right up to the column
width (counted in runes; none when the text is already that wide), then `\n\r`. -/
theorem options_left_justified (title searchText : GoString) (wsCol : Nat)
    (options : List GoString) (index : GoString) :
    clearAndDraw title searchText wsCol options index
      = clearScreen ++ (title ++ ascii ": " ++ searchText ++ ascii "\n\r")
        ++ (options.flatMap fun opt =>
            (if opt = index then purpleBackground ++ whiteText else resetColor)
              ++ (ascii " " ++ opt
                  ++ List.replicate
                      (drawCols title searchText wsCol - RuneCountInString (ascii " " ++ opt)) 32)
              ++ ascii "\n\r")
        ++ resetColor
        ++ (ascii "\x1b[1;" ++ formatInt (title.length + searchText.length + 3) ++ ascii "H") := by
  rw [clearAndDraw, drawOptions_eq_flatMap]

end Selector
